import Mathlib

/-!
Shallow embedding of the block-import and state-commit core of the
parity client (src/ethcore/src/client/client.rs), together with proofs
of the specification claims about it.

Hashes (H256) are modelled as natural numbers; the model only ever
compares them for equality.  Machine counters (usize, U256) are
modelled as natural numbers: the source increments them by small
per-block amounts and treats overflow as a program error.
-/

set_option autoImplicit false

namespace Parity

/-- A block hash (H256 in the source), modelled as a natural number. -/
abbrev Hash := Nat

/-- Outcome of inserting one block into the chain store
(`ImportRoute` in the source): the hashes newly made canonical and the
hashes removed from the canonical chain. -/
structure ImportRoute where
  enacted : List Hash
  retracted : List Hash
deriving DecidableEq, Repr

/-! ### The hash → bool map used by calculate_enacted_retracted

The source folds the import routes into a `HashMap<H256, bool>`.  We
model the map as an association list with unique keys; `hmInsert`
models `HashMap::insert` (overwriting any previous binding). -/

/-- Association-list model of `HashMap<H256, bool>`. -/
abbrev HMap := List (Hash × Bool)

/-- `HashMap::insert`: overwrite any existing binding of `k`. -/
def hmInsert (m : HMap) (k : Hash) (v : Bool) : HMap :=
  m.filter (fun p => p.1 ≠ k) ++ [(k, v)]

/-- `HashMap::get`: the value bound to `x`, if any. -/
def hmLookup : HMap → Hash → Option Bool
  | [], _ => none
  | (k, v) :: rest, x => if x = k then some v else hmLookup rest x

/-- Insert every hash of `l` with the same value `v` (the inner loops of
the fold in `calculate_enacted_retracted`). -/
def insertAll (m : HMap) (l : List Hash) (v : Bool) : HMap :=
  l.foldl (fun m h => hmInsert m h v) m

/-- One step of the fold in `calculate_enacted_retracted`: record the
route's enacted hashes as `true`, then its retracted hashes as
`false`. -/
def routeFold (m : HMap) (route : ImportRoute) : HMap :=
  insertAll (insertAll m route.enacted true) route.retracted false

/-- `Client::calculate_enacted_retracted`: fold the hash → bool map
over the routes in order, then split it into the keys mapped `true`
(enacted) and the keys mapped `false` (retracted). -/
def calculate_enacted_retracted (import_results : List ImportRoute) :
    List Hash × List Hash :=
  let map := import_results.foldl routeFold []
  ((map.filter (fun p => p.2)).map (fun p => p.1),
   (map.filter (fun p => !p.2)).map (fun p => p.1))

/-! Reference semantics for the fold, per hash: the mark a single route
gives a hash (retracted wins inside one route because it is inserted
after enacted), and the final mark after folding all routes in order
(a later route overrides an earlier one). -/

/-- The mark one route gives hash `h`, if any. -/
def routeMark (r : ImportRoute) (h : Hash) : Option Bool :=
  if h ∈ r.retracted then some false
  else if h ∈ r.enacted then some true
  else none

/-- The final mark of hash `h` after folding all routes in order:
the mark of the last route that mentions `h`. -/
def finalMark (routes : List ImportRoute) (h : Hash) : Option Bool :=
  routes.foldl
    (fun acc r => match routeMark r h with
      | some v => some v
      | none => acc)
    none

/-! ### Blocks, the client report, and check_and_close_block

`check_and_close_block` consults the verifier, the chain and the
block's execution; those collaborators are parameters of the model
(`familyOk`, `parentInChain`, `enactOk`, `finalOk`).  Besides the
result (`none` models `Err(())`) the model records which verification
stages were actually executed, in order. -/

/-- A pre-verified block (`PreverifiedBlock`): the header fields that
the import path reads, plus the transaction count and gas used that
`ClientReport::accrue_block` consumes. -/
structure Blk where
  hash : Hash
  parentHash : Hash
  number : Nat
  txCount : Nat
  gasUsed : Nat
deriving DecidableEq, Repr

/-- The verification / execution stages of `check_and_close_block`
that run after the ancestry gate. -/
inductive Stage where
  | family
  | enact
  | finalVerify
deriving DecidableEq, Repr

/-- `Client::check_and_close_block`.  Returns `(result, stages)`:
`result = none` models `Err(())`, `some ()` models `Ok(locked_block)`;
`stages` lists the verification/execution stages that ran. -/
def check_and_close_block (history best_block_number : Nat) (b : Blk)
    (familyOk parentInChain enactOk finalOk : Bool) :
    Option Unit × List Stage :=
  if history ≤ best_block_number ∧
      b.number ≤ best_block_number - history then
    (none, [])
  else if !familyOk then
    (none, [Stage.family])
  else if parentInChain then
    if !enactOk then
      (none, [Stage.family, Stage.enact])
    else if !finalOk then
      (none, [Stage.family, Stage.enact, Stage.finalVerify])
    else
      (some (), [Stage.family, Stage.enact, Stage.finalVerify])
  else
    (none, [Stage.family])

/-- `ClientReport`: the client's monotone counters. -/
structure ClientReport where
  blocks_imported : Nat
  transactions_applied : Nat
  gas_processed : Nat
  state_db_mem : Nat
deriving DecidableEq, Repr

/-- `ClientReport::accrue_block`. -/
def accrue_block (r : ClientReport) (b : Blk) : ClientReport :=
  { r with
    blocks_imported := r.blocks_imported + 1,
    transactions_applied := r.transactions_applied + b.txCount,
    gas_processed := r.gas_processed + b.gasUsed }

/-! ### commit_block

The model records the operations staged into the single `DBTransaction`
(`BatchOp`) and the side effects performed, in order (`DbEvent`).  The
route returned by `BlockChain::insert_block` is a parameter. -/

/-- An operation staged into the one KV batch of `commit_block`. -/
inductive BatchOp where
  | journal (era : Nat) (hash : Hash)
  | markCanonical (era : Nat) (hash : Hash)
  | insertBlock (hash : Hash)
  | traceImport (blockHash : Hash) (blockNumber : Nat)
      (enacted : List Hash) (retractedCount : Nat)
deriving DecidableEq, Repr

/-- A side effect performed by `commit_block`, in program order. -/
inductive DbEvent where
  | syncCache (enacted retracted : List Hash) (isCanon : Bool)
  | writeBuffered (batch : List BatchOp)
  | chainCommit
  | updateLastHashesCall (parent hash : Hash)
deriving DecidableEq, Repr

/-- Result of `commit_block`: the route it returns, the batch it
staged, and the side effects it performed. -/
structure CommitOut where
  route : ImportRoute
  batch : List BatchOp
  events : List DbEvent
deriving DecidableEq, Repr

/-- `Client::commit_block`.  `chainBlockHash` is the chain store's
number → canonical-hash map; `insertRoute` is the route
`BlockChain::insert_block` computes for this block. -/
def commit_block (history : Nat) (chainBlockHash : Nat → Option Hash)
    (insertRoute : ImportRoute) (number : Nat) (hash parent : Hash) :
    CommitOut :=
  let batch0 : List BatchOp := [BatchOp.journal number hash]
  let batch1 :=
    if history ≤ number then
      match chainBlockHash (number - history) with
      | some ancient_hash =>
          batch0 ++ [BatchOp.markCanonical (number - history) ancient_hash]
      | none => batch0
    else batch0
  let route := insertRoute
  let batch2 := batch1 ++ [BatchOp.insertBlock hash]
  let batch3 := batch2 ++
    [BatchOp.traceImport hash number route.enacted route.retracted.length]
  let isCanon := route.enacted.getLast? == some hash
  { route := route,
    batch := batch3,
    events := [DbEvent.syncCache route.enacted route.retracted isCanon,
               DbEvent.writeBuffered batch3,
               DbEvent.chainCommit,
               DbEvent.updateLastHashesCall parent hash] }

/-! ### The import loop (import_verified_blocks)

The per-block work — `check_and_close_block` and `commit_block` — is
abstracted into the parameters `check` (did the block verify and
execute?) and `routeOf` (the route its commit produced). -/

/-- Accumulator of the loop inside `import_verified_blocks`. -/
structure LoopOut where
  imported : List Hash
  invalid : List Hash
  routes : List ImportRoute
  report : ClientReport
deriving DecidableEq, Repr

/-- One iteration of the loop: skip (and mark invalid) a block whose
parent is already invalid in this batch; otherwise verify, and on
success record the hash, the commit's route, and accrue the report. -/
def loopStep (check : Blk → Bool) (routeOf : Blk → ImportRoute)
    (acc : LoopOut) (b : Blk) : LoopOut :=
  if b.parentHash ∈ acc.invalid then
    { acc with invalid := acc.invalid ++ [b.hash] }
  else if check b then
    { imported := acc.imported ++ [b.hash],
      invalid := acc.invalid,
      routes := acc.routes ++ [routeOf b],
      report := accrue_block acc.report b }
  else
    { acc with invalid := acc.invalid ++ [b.hash] }

/-- The whole loop over the drained batch. -/
def runLoop (check : Blk → Bool) (routeOf : Blk → ImportRoute)
    (blocks : List Blk) (report : ClientReport) : LoopOut :=
  blocks.foldl (loopStep check routeOf) ⟨[], [], [], report⟩

/-- An externally observable action of `import_verified_blocks`. -/
inductive QEvent where
  | markAsBad (hashes : List Hash)
  | markAsGood (hashes : List Hash)
  | minerNewBlocks (imported invalid enacted retracted : List Hash)
  | newBlocks (subscriber : Nat) (imported invalid enacted retracted
      sealed : List Hash) (duration : Nat)
  | flush
deriving DecidableEq, Repr

/-- `Client::import_verified_blocks`.  `blocks` is the drained batch,
`isEmptyAfter` the queue's answer to `mark_as_good`, `subscribers` the
live `ChainNotify` subscribers.  Returns the new report, the return
value (number of imported blocks) and the emitted actions in order. -/
def import_verified_blocks (check : Blk → Bool)
    (routeOf : Blk → ImportRoute) (blocks : List Blk)
    (isEmptyAfter : Bool) (subscribers : List Nat)
    (report : ClientReport) (duration : Nat) :
    ClientReport × Nat × List QEvent :=
  if blocks.isEmpty then (report, 0, [])
  else
    let out := runLoop check routeOf blocks report
    let evBad :=
      if out.invalid.isEmpty then [] else [QEvent.markAsBad out.invalid]
    let evGood := [QEvent.markAsGood out.imported]
    let evNotify :=
      if !out.imported.isEmpty && isEmptyAfter then
        let er := calculate_enacted_retracted out.routes
        QEvent.minerNewBlocks out.imported out.invalid er.1 er.2 ::
          subscribers.map (fun s =>
            QEvent.newBlocks s out.imported out.invalid er.1 er.2 [] duration)
      else []
    (out.report, out.imported.length, evBad ++ evGood ++ evNotify ++ [QEvent.flush])

/-- Is this event a `new_blocks` notification (to any subscriber)? -/
def isNewBlocks : QEvent → Bool
  | QEvent.newBlocks _ _ _ _ _ _ _ => true
  | _ => false

/-- Is this event a `new_blocks` notification to subscriber `s`? -/
def isNewBlocksFor (s : Nat) : QEvent → Bool
  | QEvent.newBlocks s₂ _ _ _ _ _ _ => s₂ == s
  | _ => false

/-! ### import_block (enqueue path) -/

/-- `BlockStatus`. -/
inductive BlockStatus where
  | inChain
  | queued
  | bad
  | unknown
deriving DecidableEq, Repr

/-- Read view of the chain store used by `import_block`. -/
structure ChainView where
  known : Hash → Bool

/-- Read view of the block queue: its status map and its pending
contents. -/
structure QueueView where
  status : Hash → BlockStatus
  pending : List Hash

/-- `Client::block_status` specialised to `BlockID::Hash`: known in
chain wins, otherwise ask the queue. -/
def block_status (chain : ChainView) (queue : QueueView) (h : Hash) :
    BlockStatus :=
  if chain.known h then BlockStatus.inChain else queue.status h

/-- Result of `Client::import_block`. -/
inductive ImportOutcome where
  | ok (hash : Hash)
  | alreadyInChain
  | unknownParent (parent : Hash)
deriving DecidableEq, Repr

/-- `Client::import_block`.  `store` is the (opaque) persistent state;
the function returns it unchanged on the error paths.  On the success
path the block is handed to the queue. -/
def import_block (chain : ChainView) (queue : QueueView) (store : Nat)
    (b : Blk) : ImportOutcome × QueueView × Nat :=
  if chain.known b.hash then
    (ImportOutcome.alreadyInChain, queue, store)
  else if block_status chain queue b.parentHash = BlockStatus.unknown then
    (ImportOutcome.unknownParent b.parentHash, queue, store)
  else
    (ImportOutcome.ok b.hash,
     { queue with pending := queue.pending ++ [b.hash] }, store)

/-! ### The last-hashes window -/

/-- `Vec::resize(256, H256::default())`: truncate or pad with the zero
hash to exactly 256 entries. -/
def resize256 (l : List Hash) : List Hash :=
  l.take 256 ++ List.replicate (256 - l.length) 0

/-- The rebuild walk of `build_last_hashes`: follow
`block_details.parent` from `cur`, spending one unit of fuel per
lookup; the source performs at most 255 lookups. -/
def walkBack (details : Hash → Option Hash) : Hash → Nat → List Hash
  | cur, 0 => [cur]
  | cur, fuel + 1 =>
      cur :: (match details cur with
        | some parent => walkBack details parent fuel
        | none => [])

/-- Result of `build_last_hashes`: the returned window, the new cached
window, and whether the rebuild path ran. -/
structure BuildOut where
  res : List Hash
  cache : List Hash
  rebuilt : Bool
deriving DecidableEq, Repr

/-- `Client::build_last_hashes`: serve from the cache when its front is
the requested parent, otherwise rebuild by walking
`block_details.parent` and overwrite the cache. -/
def build_last_hashes (details : Hash → Option Hash)
    (cache : List Hash) (parent_hash : Hash) : BuildOut :=
  if cache.head? = some parent_hash then
    { res := resize256 cache, cache := cache, rebuilt := false }
  else
    let rebuilt := resize256 (walkBack details parent_hash 255)
    { res := rebuilt, cache := rebuilt, rebuilt := true }

/-- `Client::update_last_hashes`: push the new hash to the front only
when `parent` is the current front, dropping the back beyond 255
entries. -/
def update_last_hashes (cache : List Hash) (parent hash : Hash) :
    List Hash :=
  if cache.head? = some parent then
    hash :: (if cache.length > 255 then cache.dropLast else cache)
  else cache

/-! ### The mode / liveness state machine -/

/-- `Mode`.  Timeouts and instants are abstract natural numbers. -/
inductive Mode where
  | active
  | passive (timeout wakeup_after : Nat)
  | dark (timeout : Nat)
  | off
deriving DecidableEq, Repr

/-- `MAX_QUEUE_SIZE_TO_SLEEP_ON`. -/
def MAX_QUEUE_SIZE_TO_SLEEP_ON : Nat := 2

/-- The client state the mode machine reads and writes:  the mode, the
liveness flag, the two sleep-state instants, and the block queue's
total size (read by `sleep`). -/
structure CState where
  mode : Mode
  liveness : Bool
  lastActivity : Option Nat
  lastAutosleep : Option Nat
  queueTotal : Nat
deriving DecidableEq, Repr

/-- A notification emitted to every subscriber. -/
inductive ModeEvent where
  | start
  | stop
deriving DecidableEq, Repr

/-- `Client::wake_up`. -/
def wake_up (s : CState) : CState × List ModeEvent :=
  if s.liveness then (s, [])
  else ({ s with liveness := true }, [ModeEvent.start])

/-- `Client::sleep`: only sleep when the import queue is mostly
empty. -/
def sleep (s : CState) : CState × List ModeEvent :=
  if s.liveness then
    if s.queueTotal ≤ MAX_QUEUE_SIZE_TO_SLEEP_ON then
      ({ s with liveness := false }, [ModeEvent.stop])
    else (s, [])
  else (s, [])

/-- `Client::keep_alive`. -/
def keep_alive (now : Nat) (s : CState) : CState × List ModeEvent :=
  let shouldWake :=
    match s.mode with
    | Mode.dark _ => true
    | Mode.passive _ _ => true
    | _ => false
  if shouldWake then
    let (s₁, ev) := wake_up s
    ({ s₁ with lastActivity := some now }, ev)
  else (s, [])

/-- `Client::tick` (the mode-machine part; cache garbage collection is
outside the model). -/
def tick (now : Nat) (s : CState) : CState × List ModeEvent :=
  match s.mode with
  | Mode.dark timeout =>
      (match s.lastActivity with
       | some t =>
           if t + timeout < now then
             let (s₁, ev) := sleep s
             ({ s₁ with lastActivity := none }, ev)
           else (s, [])
       | none => (s, []))
  | Mode.passive timeout wakeup_after =>
      let (s₁, ev₁) :=
        match s.lastActivity with
        | some t =>
            if t + timeout < now then
              let (s₂, ev) := sleep s
              ({ s₂ with lastActivity := none, lastAutosleep := some now }, ev)
            else (s, [])
        | none => (s, [])
      let (s₃, ev₂) :=
        match s₁.lastAutosleep with
        | some t =>
            if t + wakeup_after < now then
              let (s₄, ev) := wake_up s₁
              ({ s₄ with lastActivity := some now, lastAutosleep := none }, ev)
            else (s₁, [])
        | none => (s₁, [])
      (s₃, ev₁ ++ ev₂)
  | _ => (s, [])

/-- `Client::set_mode` (the `on_mode_change` callback carries no
subscriber notification and is outside the model). -/
def set_mode (new_mode : Mode) (now : Nat) (s : CState) :
    CState × List ModeEvent :=
  let s₀ := { s with mode := new_mode }
  match new_mode with
  | Mode.active => wake_up s₀
  | Mode.off => sleep s₀
  | _ => ({ s₀ with lastActivity := some now }, [])

/-- A call the outside world can make between mode changes. -/
inductive ModeOp where
  | keepAlive (now : Nat)
  | tickOp (now : Nat)
  | sleepOp
deriving DecidableEq, Repr

/-- Apply one call. -/
def applyModeOp (s : CState) : ModeOp → CState × List ModeEvent
  | ModeOp.keepAlive now => keep_alive now s
  | ModeOp.tickOp now => tick now s
  | ModeOp.sleepOp => sleep s

/-- Apply a sequence of calls, concatenating the emitted
notifications. -/
def runModeOps (s : CState) : List ModeOp → CState × List ModeEvent
  | [] => (s, [])
  | op :: ops =>
      let r := applyModeOp s op
      let rest := runModeOps r.1 ops
      (rest.1, r.2 ++ rest.2)

/-- Is this a `write_buffered` call? -/
def isWriteBuffered : DbEvent → Bool
  | DbEvent.writeBuffered _ => true
  | _ => false

/-- Componentwise order on the three cumulative report counters. -/
def reportLe (r₁ r₂ : ClientReport) : Prop :=
  r₁.blocks_imported ≤ r₂.blocks_imported ∧
  r₁.transactions_applied ≤ r₂.transactions_applied ∧
  r₁.gas_processed ≤ r₂.gas_processed

/-! ### Lemmas about the map -/

theorem hmLookup_append (m₁ m₂ : HMap) (x : Hash) :
    hmLookup (m₁ ++ m₂) x =
      match hmLookup m₁ x with
      | some v => some v
      | none => hmLookup m₂ x := by
  induction m₁ with
  | nil => simp [hmLookup]
  | cons p rest ih =>
    obtain ⟨k, v⟩ := p
    by_cases hx : x = k <;> simp [hmLookup, hx, ih]

theorem hmLookup_filter_ne (m : HMap) (k x : Hash) (hx : x ≠ k) :
    hmLookup (m.filter (fun p => p.1 ≠ k)) x = hmLookup m x := by
  induction m with
  | nil => simp [hmLookup]
  | cons p rest ih =>
    obtain ⟨k', v'⟩ := p
    by_cases hk : k' = k
    · subst hk
      simp only [List.filter_cons, ne_eq, decide_not, decide_eq_true_eq]
      simp only [ne_eq, decide_not] at ih
      simp [hmLookup, hx, ih]
    · simp only [List.filter_cons, ne_eq, decide_not, decide_eq_true_eq]
      simp only [ne_eq, decide_not] at ih
      by_cases hxk : x = k'
      · simp [hmLookup, hxk, hk]
      · simp [hmLookup, hxk, hk, ih]

theorem hmLookup_filter_eq (m : HMap) (k : Hash) :
    hmLookup (m.filter (fun p => p.1 ≠ k)) k = none := by
  induction m with
  | nil => simp [hmLookup]
  | cons p rest ih =>
    obtain ⟨k', v'⟩ := p
    by_cases hk : k' = k
    · subst hk
      simp only [List.filter_cons, ne_eq, decide_not, decide_eq_true_eq]
      simp only [ne_eq, decide_not] at ih
      simp [ih]
    · simp only [List.filter_cons, ne_eq, decide_not, decide_eq_true_eq]
      simp only [ne_eq, decide_not] at ih
      have hke : k ≠ k' := fun h => hk h.symm
      simp [hmLookup, hk, hke, ih]

theorem hmLookup_insert (m : HMap) (k : Hash) (v : Bool) (x : Hash) :
    hmLookup (hmInsert m k v) x = if x = k then some v else hmLookup m x := by
  by_cases hx : x = k
  · subst hx
    simp only [hmInsert, hmLookup_append, hmLookup_filter_eq]
    simp [hmLookup]
  · simp only [hmInsert, hmLookup_append, hmLookup_filter_ne m k x hx]
    simp only [if_neg hx]
    cases h : hmLookup m x <;> simp [hmLookup, hx]

theorem hmLookup_insertAll (l : List Hash) (m : HMap) (v : Bool) (x : Hash) :
    hmLookup (insertAll m l v) x = if x ∈ l then some v else hmLookup m x := by
  induction l generalizing m with
  | nil => simp [insertAll]
  | cons h t ih =>
    simp only [insertAll, List.foldl_cons]
    rw [show (List.foldl (fun m h => hmInsert m h v) (hmInsert m h v) t) =
          insertAll (hmInsert m h v) t v from rfl]
    rw [ih]
    by_cases hx : x ∈ t
    · simp [hx]
    · by_cases hxh : x = h
      · simp [hx, hxh, hmLookup_insert]
      · simp [hx, hxh, hmLookup_insert]

theorem hmLookup_routeFold (m : HMap) (r : ImportRoute) (x : Hash) :
    hmLookup (routeFold m r) x =
      match routeMark r x with
      | some v => some v
      | none => hmLookup m x := by
  simp only [routeFold, routeMark, hmLookup_insertAll]
  by_cases hre : x ∈ r.retracted
  · simp [hre]
  · by_cases hen : x ∈ r.enacted <;> simp [hre, hen]

theorem finalMark_foldl_from (rs : List ImportRoute) (x : Hash) (a : Option Bool) :
    rs.foldl
        (fun acc r => match routeMark r x with
          | some v => some v
          | none => acc) a =
      match finalMark rs x with
      | some v => some v
      | none => a := by
  induction rs generalizing a with
  | nil => simp [finalMark]
  | cons r rs' ih =>
    simp only [List.foldl_cons]
    rw [ih]
    have hcons : finalMark (r :: rs') x =
        match finalMark rs' x with
        | some v => some v
        | none => routeMark r x := by
      simp only [finalMark, List.foldl_cons]
      rw [ih]
      cases routeMark r x <;> simp [finalMark]
    rw [hcons]
    cases finalMark rs' x <;> cases routeMark r x <;> simp

theorem hmLookup_foldl_routeFold (routes : List ImportRoute) (m : HMap) (x : Hash) :
    hmLookup (routes.foldl routeFold m) x =
      match finalMark routes x with
      | some v => some v
      | none => hmLookup m x := by
  induction routes generalizing m with
  | nil => simp [finalMark]
  | cons r rs ih =>
    simp only [List.foldl_cons, ih, hmLookup_routeFold]
    have hcons : finalMark (r :: rs) x =
        match finalMark rs x with
        | some v => some v
        | none => routeMark r x := by
      simp only [finalMark, List.foldl_cons]
      rw [finalMark_foldl_from]
      cases routeMark r x <;> simp [finalMark]
    rw [hcons]
    cases hrs : finalMark rs x <;> cases hr : routeMark r x <;> simp

/-- Lookup in the map built by `calculate_enacted_retracted` agrees with
the per-hash fold semantics `finalMark`. -/
theorem hmLookup_buildMap (routes : List ImportRoute) (x : Hash) :
    hmLookup (routes.foldl routeFold []) x = finalMark routes x := by
  rw [hmLookup_foldl_routeFold]
  cases h : finalMark routes x <;> simp [hmLookup]

/-! The keys of the map stay unique, so membership of `(x, v)` in the
map coincides with `hmLookup` returning `v`. -/

/-- The keys of an `HMap`. -/
def hmKeys (m : HMap) : List Hash := m.map (fun p => p.1)

theorem hmKeys_nodup_insert (m : HMap) (k : Hash) (v : Bool)
    (hm : (hmKeys m).Nodup) : (hmKeys (hmInsert m k v)).Nodup := by
  simp only [hmKeys, hmInsert, List.map_append]
  rw [List.nodup_append]
  refine ⟨?_, by simp, ?_⟩
  · exact (hm.sublist ((List.filter_sublist m).map _))
  · intro a ha hb
    simp only [List.map_cons, List.map_nil, List.mem_singleton] at hb
    subst hb
    simp only [List.mem_map] at ha
    obtain ⟨p, hp, hpa⟩ := ha
    have hne := List.of_mem_filter hp
    simp only [ne_eq, decide_not, Bool.not_eq_eq_eq_not, Bool.not_true,
      decide_eq_false_iff_not] at hne
    exact hne hpa

theorem hmKeys_nodup_insertAll (l : List Hash) (m : HMap) (v : Bool)
    (hm : (hmKeys m).Nodup) : (hmKeys (insertAll m l v)).Nodup := by
  induction l generalizing m with
  | nil => simpa [insertAll] using hm
  | cons h t ih =>
    simp only [insertAll, List.foldl_cons]
    exact ih (hmInsert m h v) (hmKeys_nodup_insert m h v hm)

theorem hmKeys_nodup_buildMap (routes : List ImportRoute) :
    (hmKeys (routes.foldl routeFold [])).Nodup := by
  have main : ∀ (rs : List ImportRoute) (m : HMap), (hmKeys m).Nodup →
      (hmKeys (rs.foldl routeFold m)).Nodup := by
    intro rs
    induction rs with
    | nil => intro m hm; simpa using hm
    | cons r rs' ih =>
      intro m hm
      simp only [List.foldl_cons]
      exact ih _ (hmKeys_nodup_insertAll _ _ _ (hmKeys_nodup_insertAll _ _ _ hm))
  exact main routes [] (by simp [hmKeys])

/-- With unique keys, a hash appears among the entries filtered to
value `v` iff the lookup returns `v`. -/
theorem mem_filter_map_iff_lookup (m : HMap) (hm : (hmKeys m).Nodup)
    (v : Bool) (x : Hash) :
    (x ∈ (m.filter (fun p => p.2 == v)).map (fun p => p.1)) ↔
      hmLookup m x = some v := by
  induction m with
  | nil => simp [hmLookup]
  | cons p rest ih =>
    obtain ⟨k, v'⟩ := p
    simp only [hmKeys, List.map_cons, List.nodup_cons] at hm
    obtain ⟨hknot, hrest⟩ := hm
    have ihr := ih hrest
    by_cases hxk : x = k
    · subst hxk
      simp only [hmLookup, if_pos rfl]
      constructor
      · intro hmem
        simp only [List.mem_map, List.mem_filter] at hmem
        obtain ⟨q, hq, hqx⟩ := hmem
        rcases List.mem_cons.mp hq.1 with hq1 | hq1
        · subst hq1
          have := hq.2
          simp only [beq_iff_eq] at this
          simp [this]
        · exfalso
          apply hknot
          subst hqx
          exact List.mem_map.mpr ⟨q, hq1, rfl⟩
      · intro hv
        have hv' : v' = v := by simpa using hv
        subst hv'
        simp only [List.filter_cons]
        simp only [beq_self_eq_true, if_pos]
        simp
    · simp only [hmLookup, if_neg hxk]
      rw [← ihr]
      simp only [List.filter_cons]
      by_cases hveq : v' == v
      · simp only [if_pos hveq, List.map_cons, List.mem_cons]
        constructor
        · intro h
          rcases h with h | h
          · exact absurd h hxk
          · exact h
        · intro h; exact Or.inr h
      · simp [hveq]

theorem mem_enacted_iff_finalMark (routes : List ImportRoute) (h : Hash) :
    h ∈ (calculate_enacted_retracted routes).1 ↔ finalMark routes h = some true := by
  have hpred : (fun p : Hash × Bool => p.2) = (fun p : Hash × Bool => p.2 == true) := by
    funext p; cases p.2 <;> rfl
  simp only [calculate_enacted_retracted, hpred]
  rw [mem_filter_map_iff_lookup _ (hmKeys_nodup_buildMap routes) true h,
    hmLookup_buildMap]

theorem mem_retracted_iff_finalMark (routes : List ImportRoute) (h : Hash) :
    h ∈ (calculate_enacted_retracted routes).2 ↔ finalMark routes h = some false := by
  have hpred : (fun p : Hash × Bool => !p.2) = (fun p : Hash × Bool => p.2 == false) := by
    funext p; cases p.2 <;> rfl
  simp only [calculate_enacted_retracted, hpred]
  rw [mem_filter_map_iff_lookup _ (hmKeys_nodup_buildMap routes) false h,
    hmLookup_buildMap]

/-- C1: `calculate_enacted_retracted` returns exactly the
(enacted, retracted) pair given by folding the hash → bool map over the
per-block import routes in order — a hash's final mark is the one given
by the last route that mentions it, with retraction overriding
enactment inside a single route — so enacted is the set of hashes whose
final mark is `true`, retracted the set whose final mark is `false`,
and the two are disjoint. -/
theorem calculate_enacted_retracted_spec (routes : List ImportRoute) :
    (∀ h, h ∈ (calculate_enacted_retracted routes).1 ↔
        finalMark routes h = some true) ∧
    (∀ h, h ∈ (calculate_enacted_retracted routes).2 ↔
        finalMark routes h = some false) ∧
    (∀ h, h ∈ (calculate_enacted_retracted routes).1 →
        h ∉ (calculate_enacted_retracted routes).2) := by
  refine ⟨mem_enacted_iff_finalMark routes, mem_retracted_iff_finalMark routes, ?_⟩
  intro h hen hre
  rw [mem_enacted_iff_finalMark] at hen
  rw [mem_retracted_iff_finalMark] at hre
  rw [hen] at hre
  exact Bool.noConfusion (Option.some.inj hre)

/-- C2: when the best block number is at least the history window `H`
and the block's number is at most `best − H`, `check_and_close_block`
rejects the block before running any verification or execution stage
(whatever the verifier, chain and executor would have answered), and
the import loop records the block as invalid and commits nothing. -/
theorem check_and_close_block_ancestry_gate
    (history best_block_number : Nat) (b : Blk)
    (familyOk parentInChain enactOk finalOk : Bool)
    (routeOf : Blk → ImportRoute) (report : ClientReport)
    (hH : history ≤ best_block_number)
    (hnum : b.number ≤ best_block_number - history) :
    check_and_close_block history best_block_number b
        familyOk parentInChain enactOk finalOk = (none, []) ∧
    runLoop
        (fun blk => (check_and_close_block history best_block_number blk
          familyOk parentInChain enactOk finalOk).1.isSome)
        routeOf [b] report =
      ⟨[], [b.hash], [], report⟩ := by
  have hg : check_and_close_block history best_block_number b
      familyOk parentInChain enactOk finalOk = (none, []) := by
    unfold check_and_close_block
    rw [if_pos ⟨hH, hnum⟩]
  refine ⟨hg, ?_⟩
  simp [runLoop, loopStep, hg]

theorem check_and_close_block_ancestry_gate_witness :
    8 ≤ (10 : Nat) ∧ (2 : Nat) ≤ 10 - 8 ∧
    check_and_close_block 8 10 ⟨1, 0, 2, 0, 0⟩ true true true true =
      (none, []) ∧
    runLoop
        (fun blk => (check_and_close_block 8 10 blk
          true true true true).1.isSome)
        (fun _ => ⟨[], []⟩) [⟨1, 0, 2, 0, 0⟩] ⟨0, 0, 0, 0⟩ =
      ⟨[], [1], [], ⟨0, 0, 0, 0⟩⟩ := by
  refine ⟨by decide, by decide, ?_⟩
  exact check_and_close_block_ancestry_gate 8 10 ⟨1, 0, 2, 0, 0⟩
    true true true true (fun _ => ⟨[], []⟩) ⟨0, 0, 0, 0⟩
    (by decide) (by decide)

/-- C3: `commit_block` stages exactly one `write_buffered` batch; when
`number ≥ H` and the chain store records a canonical hash for era
`number − H`, that batch contains the `mark_canonical` of era
`number − H` against that hash together with the block's own journal
entry, chain insertion and trace import; when `number < H` the batch
contains no `mark_canonical` at all. -/
theorem commit_block_prune_step
    (history : Nat) (chainBlockHash : Nat → Option Hash)
    (route : ImportRoute) (number : Nat) (hash parent ancient : Hash) :
    ((commit_block history chainBlockHash route number hash
        parent).events.filter isWriteBuffered =
      [DbEvent.writeBuffered
        (commit_block history chainBlockHash route number hash
          parent).batch]) ∧
    (history ≤ number → chainBlockHash (number - history) = some ancient →
      BatchOp.markCanonical (number - history) ancient ∈
          (commit_block history chainBlockHash route number hash
            parent).batch ∧
      BatchOp.journal number hash ∈
          (commit_block history chainBlockHash route number hash
            parent).batch ∧
      BatchOp.insertBlock hash ∈
          (commit_block history chainBlockHash route number hash
            parent).batch ∧
      BatchOp.traceImport hash number route.enacted
            route.retracted.length ∈
          (commit_block history chainBlockHash route number hash
            parent).batch) ∧
    (number < history → ∀ era h₂,
      BatchOp.markCanonical era h₂ ∉
        (commit_block history chainBlockHash route number hash
          parent).batch) := by
  refine ⟨?_, ?_, ?_⟩
  · unfold commit_block
    by_cases hge : history ≤ number
    · cases hch : chainBlockHash (number - history) <;>
        simp [hge, hch, isWriteBuffered]
    · simp [hge, isWriteBuffered]
  · intro hge hch
    unfold commit_block
    simp [hge, hch]
  · intro hlt era h₂
    have hge : ¬ history ≤ number := Nat.not_le_of_lt hlt
    unfold commit_block
    simp [hge]

theorem commit_block_prune_step_witness :
    ((8 : Nat) ≤ 20 ∧
      (fun n => if n = 12 then some (99 : Hash) else none) (20 - 8) =
        some 99 ∧
      BatchOp.markCanonical 12 99 ∈
        (commit_block 8 (fun n => if n = 12 then some 99 else none)
          ⟨[7], []⟩ 20 7 6).batch) ∧
    ((3 : Nat) < 8 ∧ ∀ era h₂,
      BatchOp.markCanonical era h₂ ∉
        (commit_block 8 (fun n => if n = 12 then some 99 else none)
          ⟨[7], []⟩ 3 7 6).batch) := by
  constructor
  · refine ⟨by decide, by decide, ?_⟩
    exact ((commit_block_prune_step 8
      (fun n => if n = 12 then some 99 else none) ⟨[7], []⟩ 20 7 6
      99).2.1 (by decide) (by decide)).1
  · refine ⟨by decide, ?_⟩
    exact (commit_block_prune_step 8
      (fun n => if n = 12 then some 99 else none) ⟨[7], []⟩ 3 7 6
      99).2.2 (by decide)

/-- C5: `import_block` returns `AlreadyInChain` when the block's hash
is already known to the chain, and `UnknownParent` when the block is
unknown but its parent's status is `Unknown`; in both cases the queue
and the persistent store are unchanged. -/
theorem import_block_error_paths (chain : ChainView) (queue : QueueView)
    (store : Nat) (b : Blk) :
    (chain.known b.hash = true →
      import_block chain queue store b =
        (ImportOutcome.alreadyInChain, queue, store)) ∧
    (chain.known b.hash = false →
      block_status chain queue b.parentHash = BlockStatus.unknown →
      import_block chain queue store b =
        (ImportOutcome.unknownParent b.parentHash, queue, store)) := by
  constructor
  · intro hknown
    unfold import_block
    simp [hknown]
  · intro hknown hstatus
    unfold import_block
    simp [hknown, hstatus]

theorem import_block_error_paths_witness :
    ((fun h => h == 1) (1 : Hash) = true ∧
      import_block ⟨fun h => h == 1⟩
          ⟨fun _ => BlockStatus.unknown, []⟩ 0 ⟨1, 0, 1, 0, 0⟩ =
        (ImportOutcome.alreadyInChain,
          ⟨fun _ => BlockStatus.unknown, []⟩, 0)) ∧
    ((fun h => h == 1) (2 : Hash) = false ∧
      block_status ⟨fun h => h == 1⟩
          ⟨fun _ => BlockStatus.unknown, []⟩ 5 = BlockStatus.unknown ∧
      import_block ⟨fun h => h == 1⟩
          ⟨fun _ => BlockStatus.unknown, []⟩ 0 ⟨2, 5, 1, 0, 0⟩ =
        (ImportOutcome.unknownParent 5,
          ⟨fun _ => BlockStatus.unknown, []⟩, 0)) := by
  constructor
  · refine ⟨rfl, ?_⟩
    exact (import_block_error_paths ⟨fun h => h == 1⟩
      ⟨fun _ => BlockStatus.unknown, []⟩ 0 ⟨1, 0, 1, 0, 0⟩).1 rfl
  · refine ⟨rfl, rfl, ?_⟩
    exact (import_block_error_paths ⟨fun h => h == 1⟩
      ⟨fun _ => BlockStatus.unknown, []⟩ 0 ⟨2, 5, 1, 0, 0⟩).2 rfl rfl

/-- C8: while the block queue's total size exceeds
`MAX_QUEUE_SIZE_TO_SLEEP_ON`, `sleep` is refused: the state is
unchanged (in particular liveness stays `true` if it was `true`) and no
notification — in particular no `stop` — is emitted, so the client
never transitions to the sleeping state above this threshold. -/
theorem sleep_refused_when_queue_busy (s : CState)
    (hq : MAX_QUEUE_SIZE_TO_SLEEP_ON < s.queueTotal) :
    sleep s = (s, []) ∧
    (s.liveness = true → (sleep s).1.liveness = true) := by
  have hnot : ¬ s.queueTotal ≤ MAX_QUEUE_SIZE_TO_SLEEP_ON :=
    Nat.not_le_of_lt hq
  have hs : sleep s = (s, []) := by
    unfold sleep
    cases hl : s.liveness <;> simp [hnot]
  exact ⟨hs, fun hl => by rw [hs]; exact hl⟩

theorem sleep_refused_when_queue_busy_witness :
    MAX_QUEUE_SIZE_TO_SLEEP_ON < 3 ∧
    sleep ⟨Mode.active, true, none, none, 3⟩ =
      (⟨Mode.active, true, none, none, 3⟩, []) := by
  refine ⟨by decide, ?_⟩
  exact (sleep_refused_when_queue_busy
    ⟨Mode.active, true, none, none, 3⟩ (by decide)).1

/-! ### The import loop and the client report (C6) -/

theorem loopStep_blocks_imported (check : Blk → Bool)
    (routeOf : Blk → ImportRoute) (acc : LoopOut) (b : Blk) :
    (loopStep check routeOf acc b).report.blocks_imported
        + acc.imported.length =
      (loopStep check routeOf acc b).imported.length
        + acc.report.blocks_imported := by
  unfold loopStep
  by_cases hp : b.parentHash ∈ acc.invalid
  · simp [hp]; omega
  · by_cases hc : check b
    · simp [hp, hc, accrue_block]; omega
    · simp [hp, hc]; omega

theorem loopStep_report_le (check : Blk → Bool)
    (routeOf : Blk → ImportRoute) (acc : LoopOut) (b : Blk) :
    reportLe acc.report (loopStep check routeOf acc b).report := by
  unfold loopStep reportLe
  by_cases hp : b.parentHash ∈ acc.invalid
  · simp [hp]
  · by_cases hc : check b
    · simp [hp, hc, accrue_block]
    · simp [hp, hc]

theorem foldl_loopStep_blocks_imported (check : Blk → Bool)
    (routeOf : Blk → ImportRoute) (blocks : List Blk) (acc : LoopOut) :
    (blocks.foldl (loopStep check routeOf) acc).report.blocks_imported
        + acc.imported.length =
      (blocks.foldl (loopStep check routeOf) acc).imported.length
        + acc.report.blocks_imported := by
  induction blocks generalizing acc with
  | nil => exact Nat.add_comm _ _
  | cons b bs ih =>
    simp only [List.foldl_cons]
    have h2 := ih (loopStep check routeOf acc b)
    have hstep := loopStep_blocks_imported check routeOf acc b
    omega

theorem foldl_loopStep_report_mono (check : Blk → Bool)
    (routeOf : Blk → ImportRoute) (blocks : List Blk) (acc : LoopOut) :
    reportLe acc.report
      (blocks.foldl (loopStep check routeOf) acc).report := by
  induction blocks generalizing acc with
  | nil => exact ⟨Nat.le_refl _, Nat.le_refl _, Nat.le_refl _⟩
  | cons b bs ih =>
    simp only [List.foldl_cons]
    have h2 := ih (loopStep check routeOf acc b)
    have hstep := loopStep_report_le check routeOf acc b
    unfold reportLe at *
    omega

/-- C6: `import_verified_blocks` leaves every `ClientReport` counter
non-decreasing, and `blocks_imported` grows by exactly the number of
successfully committed blocks, which is the value the call returns. -/
theorem import_verified_blocks_report_spec (check : Blk → Bool)
    (routeOf : Blk → ImportRoute) (blocks : List Blk)
    (isEmptyAfter : Bool) (subscribers : List Nat)
    (report : ClientReport) (duration : Nat) :
    ((import_verified_blocks check routeOf blocks isEmptyAfter
          subscribers report duration).1.blocks_imported =
      report.blocks_imported +
        (import_verified_blocks check routeOf blocks isEmptyAfter
          subscribers report duration).2.1) ∧
    report.blocks_imported ≤
      (import_verified_blocks check routeOf blocks isEmptyAfter
        subscribers report duration).1.blocks_imported ∧
    report.transactions_applied ≤
      (import_verified_blocks check routeOf blocks isEmptyAfter
        subscribers report duration).1.transactions_applied ∧
    report.gas_processed ≤
      (import_verified_blocks check routeOf blocks isEmptyAfter
        subscribers report duration).1.gas_processed := by
  by_cases hempty : blocks.isEmpty
  · simp [import_verified_blocks, hempty]
  · have hbi := foldl_loopStep_blocks_imported check routeOf blocks
      ⟨[], [], [], report⟩
    have hmono := foldl_loopStep_report_mono check routeOf blocks
      ⟨[], [], [], report⟩
    simp only [import_verified_blocks, hempty, if_false, if_neg,
      Bool.false_eq_true, not_false_eq_true]
    simp only [runLoop] at *
    simp only [List.length_nil] at hbi
    unfold reportLe at hmono
    exact ⟨by omega, by omega, by omega, by omega⟩

/-! ### The last-hashes window (C7 and C10) -/

theorem resize256_length (l : List Hash) : (resize256 l).length = 256 := by
  simp only [resize256, List.length_append, List.length_take,
    List.length_replicate]
  omega

theorem resize256_head (l : List Hash) (hl : l ≠ []) :
    (resize256 l).head? = l.head? := by
  cases l with
  | nil => exact absurd rfl hl
  | cons a t => simp [resize256]

theorem walkBack_head (details : Hash → Option Hash) (cur : Hash)
    (fuel : Nat) : (walkBack details cur fuel).head? = some cur := by
  cases fuel <;> simp [walkBack]

theorem walkBack_length_le (details : Hash → Option Hash) (fuel : Nat) :
    ∀ cur, (walkBack details cur fuel).length ≤ fuel + 1 := by
  induction fuel with
  | zero => intro cur; simp [walkBack]
  | succ n ih =>
    intro cur
    simp only [walkBack]
    cases details cur with
    | none => simp
    | some parent =>
      have := ih parent
      simp only [List.length_cons]
      omega

/-- C10: `build_last_hashes` always returns exactly 256 hashes whose
first element is the requested parent hash; on the cached fast path the
result is the cached window padded (with the zero hash) or truncated to
256, and on the rebuild path it is the ancestor chain obtained by
walking `block_details.parent`, padded with zero hashes to 256. -/
theorem build_last_hashes_spec (details : Hash → Option Hash)
    (cache : List Hash) (parent_hash : Hash) :
    (build_last_hashes details cache parent_hash).res.length = 256 ∧
    (build_last_hashes details cache parent_hash).res.head? =
      some parent_hash ∧
    (cache.head? = some parent_hash →
      (build_last_hashes details cache parent_hash).res =
        resize256 cache) ∧
    (cache.head? ≠ some parent_hash →
      (build_last_hashes details cache parent_hash).res =
        walkBack details parent_hash 255 ++
          List.replicate (256 - (walkBack details parent_hash 255).length)
            0) := by
  by_cases hc : cache.head? = some parent_hash
  · have hne : cache ≠ [] := by
      intro h
      rw [h] at hc
      exact Option.noConfusion hc
    refine ⟨?_, ?_, fun _ => ?_, fun hn => absurd hc hn⟩
    · simp [build_last_hashes, hc, resize256_length]
    · simp only [build_last_hashes, hc, if_pos]
      rw [resize256_head cache hne, hc]
    · simp [build_last_hashes, hc]
  · have hwalk : resize256 (walkBack details parent_hash 255) =
        walkBack details parent_hash 255 ++
          List.replicate
            (256 - (walkBack details parent_hash 255).length) 0 := by
      simp only [resize256]
      rw [List.take_of_length_le]
      have := walkBack_length_le details 255 parent_hash
      omega
    refine ⟨?_, ?_, fun hy => absurd hy hc, fun _ => ?_⟩
    · simp [build_last_hashes, hc, resize256_length]
    · simp only [build_last_hashes, hc, if_neg, if_false]
      rw [hwalk]
      rw [List.head?_append_of_ne_nil]
      · exact walkBack_head details parent_hash 255
      · intro h
        have := walkBack_head details parent_hash 255
        rw [h] at this
        exact Option.noConfusion this
    · simp only [build_last_hashes, hc, if_neg, if_false]
      exact hwalk

theorem build_last_hashes_spec_witness :
    (([] : List Hash).head? ≠ some 3 ∧
      (build_last_hashes (fun _ => none) [] 3).res =
        3 :: List.replicate 255 0) ∧
    (([7] : List Hash).head? = some 7 ∧
      (build_last_hashes (fun _ => none) [7] 7).res = resize256 [7]) := by
  constructor
  · refine ⟨by decide, ?_⟩
    have h := (build_last_hashes_spec (fun _ => none) [] 3).2.2.2
      (by decide)
    rw [h]
    rfl
  · exact ⟨rfl, (build_last_hashes_spec (fun _ => none) [7] 7).2.2.1 rfl⟩

/-- C7 counterexample: calling `update_last_hashes` with a parent that
is not the cached front does NOT invalidate the cached window — the
cache `[5, 6]` is left exactly as it was, and a following
`build_last_hashes` for the stale front `5` still serves from the cache
without rebuilding. -/
theorem update_last_hashes_keeps_stale_cache :
    update_last_hashes [5, 6] 9 7 = [5, 6] ∧
    (build_last_hashes (fun _ => none) [5, 6] 5).rebuilt = false := by
  constructor
  · decide
  · rfl

/-- C7 (amended): `update_last_hashes(parent, hash)` pushes `hash` to
the front only when `parent` equals the current front (dropping the
back so a window of at most 256 entries never grows beyond 256); when
`parent` does not equal the current front the cached window is left
unchanged, and any `build_last_hashes` call whose parent argument
differs from the cached front rebuilds the window by walking
`block_details.parent`. -/
theorem update_last_hashes_spec (details : Hash → Option Hash)
    (cache : List Hash) (parent hash : Hash) :
    (cache.head? = some parent →
      update_last_hashes cache parent hash =
        hash :: (if cache.length > 255 then cache.dropLast else cache)) ∧
    (cache.head? ≠ some parent →
      update_last_hashes cache parent hash = cache) ∧
    (cache.length ≤ 256 →
      (update_last_hashes cache parent hash).length ≤ 256) ∧
    (cache.head? ≠ some parent →
      (build_last_hashes details cache parent).rebuilt = true ∧
      (build_last_hashes details cache parent).res =
        resize256 (walkBack details parent 255)) := by
  refine ⟨?_, ?_, ?_, ?_⟩
  · intro hc
    simp [update_last_hashes, hc]
  · intro hc
    simp [update_last_hashes, hc]
  · intro hlen
    by_cases hc : cache.head? = some parent
    · simp only [update_last_hashes, hc, if_pos]
      by_cases hbig : cache.length > 255
      · have hdl : cache.dropLast.length = cache.length - 1 :=
          List.length_dropLast cache
        simp only [hbig, if_pos, List.length_cons]
        omega
      · simp only [hbig, if_neg, if_false, List.length_cons]
        omega
    · simp [update_last_hashes, hc, hlen]
  · intro hc
    constructor <;> simp [build_last_hashes, hc]

theorem update_last_hashes_spec_witness :
    (([5, 6] : List Hash).head? = some 5 ∧
      update_last_hashes [5, 6] 5 7 = [7, 5, 6]) ∧
    (([5, 6] : List Hash).head? ≠ some 9 ∧
      update_last_hashes [5, 6] 9 7 = [5, 6] ∧
      (build_last_hashes (fun _ => none) [5, 6] 9).rebuilt = true) ∧
    (([5, 6] : List Hash).length ≤ 256 ∧
      (update_last_hashes [5, 6] 5 7).length ≤ 256) := by
  refine ⟨⟨rfl, ?_⟩, ⟨by decide, ?_, ?_⟩, ⟨by decide, ?_⟩⟩
  · have h := (update_last_hashes_spec (fun _ => none) [5, 6] 5 7).1 rfl
    rw [h]; rfl
  · exact (update_last_hashes_spec (fun _ => none) [5, 6] 9 7).2.1
      (by decide)
  · exact ((update_last_hashes_spec (fun _ => none) [5, 6] 9 7).2.2.2
      (by decide)).1
  · exact (update_last_hashes_spec (fun _ => none) [5, 6] 5 7).2.2.1
      (by decide)

/-! ### The mode machine (C9) -/

theorem sleep_mode_no_start (s : CState) :
    (sleep s).1.mode = s.mode ∧ ModeEvent.start ∉ (sleep s).2 := by
  unfold sleep
  split_ifs <;> simp

theorem applyModeOp_off (s : CState) (hs : s.mode = Mode.off)
    (op : ModeOp) :
    (applyModeOp s op).1.mode = Mode.off ∧
    ModeEvent.start ∉ (applyModeOp s op).2 := by
  cases op with
  | keepAlive now =>
    simp [applyModeOp, keep_alive, hs]
  | tickOp now =>
    simp [applyModeOp, tick, hs]
  | sleepOp =>
    have h := sleep_mode_no_start s
    exact ⟨by rw [applyModeOp, h.1, hs], by rw [applyModeOp]; exact h.2⟩

theorem runModeOps_off (ops : List ModeOp) (s : CState)
    (hs : s.mode = Mode.off) :
    (runModeOps s ops).1.mode = Mode.off ∧
    ModeEvent.start ∉ (runModeOps s ops).2 := by
  induction ops generalizing s with
  | nil => simpa [runModeOps] using hs
  | cons op ops ih =>
    have h1 := applyModeOp_off s hs op
    have h2 := ih (applyModeOp s op).1 h1.1
    refine ⟨h2.1, ?_⟩
    simp only [runModeOps, List.mem_append]
    rintro (h | h)
    · exact h1.2 h
    · exact h2.2 h

/-- C9: after `set_mode(Off)` no `start` notification fires — neither
from the `set_mode` call itself nor through any subsequent sequence of
`keep_alive`, `tick`, or `sleep` calls — because in the `Off` mode
`wake_up`, the only emitter of `start`, is unreachable from those
calls. -/
theorem set_mode_off_no_start (s : CState) (now : Nat)
    (ops : List ModeOp) :
    ModeEvent.start ∉ (set_mode Mode.off now s).2 ∧
    ModeEvent.start ∉ (runModeOps (set_mode Mode.off now s).1 ops).2 := by
  have h := sleep_mode_no_start { s with mode := Mode.off }
  have hset : set_mode Mode.off now s =
      sleep { s with mode := Mode.off } := rfl
  rw [hset]
  refine ⟨h.2, ?_⟩
  exact (runModeOps_off ops _ h.1).2

/-! ### Notifications of import_verified_blocks (C4) -/

theorem filter_newBlocksFor_map (sub : Nat)
    (imported invalid en re sealed : List Hash) (duration : Nat)
    (subs : List Nat) :
    ((subs.map (fun s => QEvent.newBlocks s imported invalid en re
        sealed duration)).filter (isNewBlocksFor sub)) =
      (subs.filter (fun x => x == sub)).map
        (fun s => QEvent.newBlocks s imported invalid en re
          sealed duration) := by
  induction subs with
  | nil => rfl
  | cons a t ih =>
    simp only [List.map_cons, List.filter_cons]
    by_cases ha : (a == sub) = true
    · simp only [isNewBlocksFor, ha, if_pos, List.map_cons]
      rw [ih]
    · simp only [isNewBlocksFor, ha, if_neg, Bool.false_eq_true,
        not_false_eq_true, if_false]
      rw [ih]

theorem filter_isNewBlocks_map (imported invalid en re sealed : List Hash)
    (duration : Nat) (subs : List Nat) :
    ((subs.map (fun s => QEvent.newBlocks s imported invalid en re
        sealed duration)).filter isNewBlocks) =
      subs.map (fun s => QEvent.newBlocks s imported invalid en re
        sealed duration) := by
  induction subs with
  | nil => rfl
  | cons a t ih => simp [List.filter_cons, isNewBlocks, ih]

theorem nodup_filter_beq_length (subs : List Nat) (hnd : subs.Nodup)
    (sub : Nat) :
    (subs.filter (fun x => x == sub)).length ≤ 1 ∧
    (sub ∈ subs → (subs.filter (fun x => x == sub)).length = 1) := by
  induction subs with
  | nil => simp
  | cons a t ih =>
    rw [List.nodup_cons] at hnd
    obtain ⟨hnotmem, hndt⟩ := hnd
    have iht := ih hndt
    by_cases ha : (a == sub) = true
    · have haeq : a = sub := by simpa using ha
      subst haeq
      have hft : t.filter (fun x => x == a) = [] := by
        rw [List.filter_eq_nil_iff]
        intro x hx hxa
        have hxe : x = a := by simpa using hxa
        exact hnotmem (hxe ▸ hx)
      simp [List.filter_cons, ha, hft]
    · simp only [List.filter_cons, ha, Bool.false_eq_true,
        not_false_eq_true, if_false, if_neg]
      refine ⟨iht.1, fun hmem => ?_⟩
      rcases List.mem_cons.mp hmem with h | h
      · exact absurd (by simp [h]) ha
      · exact iht.2 h

/-- The shape of the action list emitted by `import_verified_blocks`
when the drained batch is non-empty and at least one block was
successfully committed. -/
theorem import_verified_blocks_events (check : Blk → Bool)
    (routeOf : Blk → ImportRoute) (blocks : List Blk) (q : Bool)
    (subscribers : List Nat) (report : ClientReport) (duration : Nat)
    (hbne : blocks.isEmpty = false)
    (himpb : (runLoop check routeOf blocks report).imported.isEmpty
      = false) :
    (import_verified_blocks check routeOf blocks q subscribers report
        duration).2.2 =
      (if (runLoop check routeOf blocks report).invalid.isEmpty then []
        else [QEvent.markAsBad
          (runLoop check routeOf blocks report).invalid]) ++
      [QEvent.markAsGood (runLoop check routeOf blocks report).imported] ++
      (if q then
        QEvent.minerNewBlocks
            (runLoop check routeOf blocks report).imported
            (runLoop check routeOf blocks report).invalid
            (calculate_enacted_retracted
              (runLoop check routeOf blocks report).routes).1
            (calculate_enacted_retracted
              (runLoop check routeOf blocks report).routes).2 ::
          subscribers.map (fun s => QEvent.newBlocks s
            (runLoop check routeOf blocks report).imported
            (runLoop check routeOf blocks report).invalid
            (calculate_enacted_retracted
              (runLoop check routeOf blocks report).routes).1
            (calculate_enacted_retracted
              (runLoop check routeOf blocks report).routes).2
            [] duration)
        else []) ++
      [QEvent.flush] := by
  simp only [import_verified_blocks, hbne, Bool.false_eq_true,
    not_false_eq_true, if_false, if_neg, himpb, Bool.not_false,
    Bool.true_and]

/-- C4 counterexample: `import_verified_blocks` drains a non-empty
batch (one block) whose only block fails verification; the queue
reports empty after `mark_as_good` and a subscriber is registered, yet
the emitted actions contain no `chain_new_blocks` call to the miner and
no `new_blocks` notification — refuting the claim that draining a
non-empty batch with the queue empty afterwards always notifies. -/
theorem import_verified_blocks_no_notify_counterexample :
    (import_verified_blocks (fun _ => false) (fun _ => ⟨[], []⟩)
        [⟨1, 0, 1, 0, 0⟩] true [0] ⟨0, 0, 0, 0⟩ 5).2.2 =
      [QEvent.markAsBad [1], QEvent.markAsGood [], QEvent.flush] := by
  decide

/-- C4 (amended): for every `import_verified_blocks` call that drains
a non-empty batch and successfully imports at least one block, if the
block queue reports empty after `mark_as_good` then the miner is
notified via `chain_new_blocks` and every subscriber receives exactly
one `new_blocks` notification carrying the batch's imported, invalid,
enacted and retracted lists, an empty sealed list, and the batch
duration; and in every call (whatever the queue reports) each
subscriber receives at most one `new_blocks` notification. -/
theorem import_verified_blocks_notify_spec (check : Blk → Bool)
    (routeOf : Blk → ImportRoute) (blocks : List Blk)
    (isEmptyAfter : Bool) (subscribers : List Nat)
    (report : ClientReport) (duration : Nat)
    (hnd : subscribers.Nodup)
    (himp : (runLoop check routeOf blocks report).imported ≠ []) :
    (isEmptyAfter = true →
      QEvent.minerNewBlocks
          (runLoop check routeOf blocks report).imported
          (runLoop check routeOf blocks report).invalid
          (calculate_enacted_retracted
            (runLoop check routeOf blocks report).routes).1
          (calculate_enacted_retracted
            (runLoop check routeOf blocks report).routes).2 ∈
        (import_verified_blocks check routeOf blocks isEmptyAfter
          subscribers report duration).2.2 ∧
      ((import_verified_blocks check routeOf blocks isEmptyAfter
          subscribers report duration).2.2.filter isNewBlocks) =
        subscribers.map (fun s => QEvent.newBlocks s
          (runLoop check routeOf blocks report).imported
          (runLoop check routeOf blocks report).invalid
          (calculate_enacted_retracted
            (runLoop check routeOf blocks report).routes).1
          (calculate_enacted_retracted
            (runLoop check routeOf blocks report).routes).2
          [] duration) ∧
      (∀ sub ∈ subscribers,
        ((import_verified_blocks check routeOf blocks isEmptyAfter
            subscribers report duration).2.2.filter
          (isNewBlocksFor sub)).length = 1)) ∧
    (∀ sub,
      ((import_verified_blocks check routeOf blocks isEmptyAfter
          subscribers report duration).2.2.filter
        (isNewBlocksFor sub)).length ≤ 1) := by
  have hbne : blocks.isEmpty = false := by
    rcases blocks with _ | ⟨b, bs⟩
    · exact absurd rfl himp
    · rfl
  have himpb : (runLoop check routeOf blocks report).imported.isEmpty
      = false := by
    rcases h : (runLoop check routeOf blocks report).imported with _ | _
    · exact absurd h himp
    · rfl
  have hfilterBad : ∀ p : QEvent → Bool,
      (∀ hs, p (QEvent.markAsBad hs) = false) →
      ((if (runLoop check routeOf blocks report).invalid.isEmpty then []
        else [QEvent.markAsBad
          (runLoop check routeOf blocks report).invalid]).filter p) =
        [] := by
    intro p hp
    split_ifs <;> simp [hp]
  constructor
  · intro hq
    subst hq
    rw [import_verified_blocks_events check routeOf blocks true
      subscribers report duration hbne himpb]
    refine ⟨by simp, ?_, ?_⟩
    · simp only [List.filter_append, if_pos, if_true,
        List.filter_cons]
      rw [hfilterBad isNewBlocks (fun _ => rfl)]
      rw [filter_isNewBlocks_map]
      simp [isNewBlocks]
    · intro sub hsub
      have hcount := (nodup_filter_beq_length subscribers hnd sub).2 hsub
      simp only [List.filter_append, if_pos, if_true, List.filter_cons]
      rw [hfilterBad (isNewBlocksFor sub) (fun _ => rfl)]
      rw [filter_newBlocksFor_map]
      simp [isNewBlocksFor, List.length_map, hcount]
  · intro sub
    have hcount := (nodup_filter_beq_length subscribers hnd sub).1
    rw [import_verified_blocks_events check routeOf blocks isEmptyAfter
      subscribers report duration hbne himpb]
    simp only [List.filter_append]
    rw [hfilterBad (isNewBlocksFor sub) (fun _ => rfl)]
    cases isEmptyAfter with
    | false =>
      simp [isNewBlocksFor]
    | true =>
      simp only [if_pos, if_true, List.filter_cons]
      rw [filter_newBlocksFor_map]
      simp [isNewBlocksFor, List.length_map]
      omega

theorem import_verified_blocks_notify_spec_witness :
    ([0] : List Nat).Nodup ∧
    (runLoop (fun _ => true) (fun _ => ⟨[1], []⟩) [⟨1, 0, 1, 0, 0⟩]
      ⟨0, 0, 0, 0⟩).imported ≠ [] ∧
    QEvent.minerNewBlocks
        (runLoop (fun _ => true) (fun _ => ⟨[1], []⟩) [⟨1, 0, 1, 0, 0⟩]
          ⟨0, 0, 0, 0⟩).imported
        (runLoop (fun _ => true) (fun _ => ⟨[1], []⟩) [⟨1, 0, 1, 0, 0⟩]
          ⟨0, 0, 0, 0⟩).invalid
        (calculate_enacted_retracted
          (runLoop (fun _ => true) (fun _ => ⟨[1], []⟩) [⟨1, 0, 1, 0, 0⟩]
            ⟨0, 0, 0, 0⟩).routes).1
        (calculate_enacted_retracted
          (runLoop (fun _ => true) (fun _ => ⟨[1], []⟩) [⟨1, 0, 1, 0, 0⟩]
            ⟨0, 0, 0, 0⟩).routes).2 ∈
      (import_verified_blocks (fun _ => true) (fun _ => ⟨[1], []⟩)
        [⟨1, 0, 1, 0, 0⟩] true [0] ⟨0, 0, 0, 0⟩ 5).2.2 ∧
    (∀ sub,
      ((import_verified_blocks (fun _ => true) (fun _ => ⟨[1], []⟩)
          [⟨1, 0, 1, 0, 0⟩] true [0] ⟨0, 0, 0, 0⟩ 5).2.2.filter
        (isNewBlocksFor sub)).length ≤ 1) := by
  refine ⟨by decide, by decide, ?_, ?_⟩
  · exact ((import_verified_blocks_notify_spec (fun _ => true)
      (fun _ => ⟨[1], []⟩) [⟨1, 0, 1, 0, 0⟩] true [0] ⟨0, 0, 0, 0⟩ 5
      (by decide) (by decide)).1 rfl).1
  · exact (import_verified_blocks_notify_spec (fun _ => true)
      (fun _ => ⟨[1], []⟩) [⟨1, 0, 1, 0, 0⟩] true [0] ⟨0, 0, 0, 0⟩ 5
      (by decide) (by decide)).2

end Parity
